/-
Verification of the recency-list manager (`RecentsWriter`) from
`frontend-utils/src/recents/write.rs`.

The manager owns two co-indexed sequences:
  * `values` — the in-memory `Vec<Recent>` (program-facing entries), and
  * `array`  — the mirrored TOML `ArrayOfTables`, one table per entry, each
    table holding the entry's URL serialized as a string field.

We embed the state as a pair of Lean lists and the two public operations
`clear` and `push` as pure state transformers, translated directly from the
Rust source.  The key type (`url::Url` in the source) is kept abstract: any
type with decidable equality, together with an arbitrary serialization
function `serialize : Url → String` standing for `Url::as_str`.
-/
import Mathlib

set_option maxHeartbeats 1000000
set_option linter.unusedSectionVars false

/-- One recency record; the Rust struct `Recent` has the single field `url`
(its constructor in the tests is `Recent { url: ... }`). -/
structure Recent (Url : Type) where
  url : Url
deriving DecidableEq, Repr

/-- One TOML table of the mirrored document: it carries a single string field
`url`, written by `table["url"] = value(recent.url.as_str())`. -/
structure Table where
  url : String
deriving DecidableEq, Repr

/-- The state seen by `with_underlying_table`: the in-memory entries
(`values : &mut Recents`) and the document's array of tables
(`array : &mut ArrayOfTables`, the `"recent"` array). -/
structure RecentsState (Url : Type) where
  values : List (Recent Url)
  array : List Table
deriving DecidableEq, Repr

namespace RecentsWriter

variable {Url : Type} [DecidableEq Url]

/-- `Table::new()` followed by `table["url"] = value(recent.url.as_str())`. -/
def mkTable (serialize : Url → String) (u : Url) : Table :=
  { url := serialize u }

/-- `RecentsWriter::clear`: `array.clear(); values.clear();`. -/
def clear (_s : RecentsState Url) : RecentsState Url :=
  { values := [], array := [] }

/-- The eviction loop of `push`:
`for _ in 0..n { array.remove(0); values.remove(0); }`. -/
def evictLoop : Nat → RecentsState Url → RecentsState Url
  | 0, s => s
  | n + 1, s => evictLoop n { values := s.values.eraseIdx 0, array := s.array.eraseIdx 0 }

/-- `RecentsWriter::push(recent, limit)`:

* `if limit == 0 { return; }` — no-op;
* `values.iter().position(|x| x.url == recent.url)` — first index whose url
  equals the new url;
* found at `index`: `array.remove(index)`, push a freshly built table with the
  serialized url, then `let recent = values.remove(index); values.push(recent)`
  (the *removed* entry is re-appended);
* not found: if `values.len() >= limit`, run the eviction loop
  `(values.len() - limit) + 1` times, then push a fresh table and the new
  entry at the end of both sequences. -/
def push (serialize : Url → String) (recent : Recent Url) (limit : Nat)
    (s : RecentsState Url) : RecentsState Url :=
  if limit = 0 then
    s
  else
    match s.values.findIdx? (fun x => decide (x.url = recent.url)) with
    | some index =>
      { values := s.values.eraseIdx index ++ (s.values[index]?).toList,
        array := s.array.eraseIdx index ++ [mkTable serialize recent.url] }
    | none =>
      let afterEvict : RecentsState Url :=
        if limit ≤ s.values.length then
          evictLoop (s.values.length - limit + 1) s
        else
          s
      { values := afterEvict.values ++ [recent],
        array := afterEvict.array ++ [mkTable serialize recent.url] }

/-- The per-index mirroring relation of §3 of the spec: equal lengths, and at
every index the document table's string field is the serialized key of the
list entry there. -/
def Mirrored (serialize : Url → String) (s : RecentsState Url) : Prop :=
  s.array.length = s.values.length ∧
  ∀ i : Nat, i < s.values.length →
    s.array[i]? = (s.values[i]?).map (fun r => mkTable serialize r.url)

/-- The sequence of keys of the in-memory list. -/
def keys (l : List (Recent Url)) : List Url :=
  l.map Recent.url

/-- The in-bounds condition for every `remove` call that `push` performs:
in the move-to-top branch, `array.remove(index)` and `values.remove(index)`
must have `index` within both lengths; in the eviction branch every iteration
of the loop removes index `0` from both sequences, so the iteration count must
not exceed either length. -/
def pushRemovesInBounds (e : Recent Url) (limit : Nat) (s : RecentsState Url) : Prop :=
  limit = 0 ∨
    match s.values.findIdx? (fun x => decide (x.url = e.url)) with
    | some index => index < s.array.length ∧ index < s.values.length
    | none =>
      limit ≤ s.values.length →
        s.values.length - limit + 1 ≤ s.array.length ∧
        s.values.length - limit + 1 ≤ s.values.length

section Helpers

theorem eraseIdx_zero_drop {α : Type} (l : List α) (n : Nat) :
    (l.eraseIdx 0).drop n = l.drop (n + 1) := by
  cases l <;> simp

theorem evictLoop_eq (n : Nat) (s : RecentsState Url) :
    evictLoop n s = { values := s.values.drop n, array := s.array.drop n } := by
  induction n generalizing s with
  | zero => simp [evictLoop]
  | succ n ih =>
    rw [evictLoop, ih]
    simp [eraseIdx_zero_drop]

theorem push_limit_zero (serialize : Url → String) (e : Recent Url)
    (s : RecentsState Url) : push serialize e 0 s = s := rfl

theorem push_found {serialize : Url → String} {e : Recent Url} {limit : Nat}
    {s : RecentsState Url} {i : Nat} (h0 : limit ≠ 0)
    (h : s.values.findIdx? (fun x => decide (x.url = e.url)) = some i) :
    push serialize e limit s =
      { values := s.values.eraseIdx i ++ (s.values[i]?).toList,
        array := s.array.eraseIdx i ++ [mkTable serialize e.url] } := by
  rw [push, if_neg h0, h]

theorem push_none_evict {serialize : Url → String} {e : Recent Url} {limit : Nat}
    {s : RecentsState Url} (h0 : limit ≠ 0)
    (h : s.values.findIdx? (fun x => decide (x.url = e.url)) = none)
    (hl : limit ≤ s.values.length) :
    push serialize e limit s =
      { values := s.values.drop (s.values.length - limit + 1) ++ [e],
        array := s.array.drop (s.values.length - limit + 1) ++ [mkTable serialize e.url] } := by
  rw [push, if_neg h0, h]
  simp only [if_pos hl, evictLoop_eq]

theorem push_none_room {serialize : Url → String} {e : Recent Url} {limit : Nat}
    {s : RecentsState Url} (h0 : limit ≠ 0)
    (h : s.values.findIdx? (fun x => decide (x.url = e.url)) = none)
    (hl : s.values.length < limit) :
    push serialize e limit s =
      { values := s.values ++ [e],
        array := s.array ++ [mkTable serialize e.url] } := by
  rw [push, if_neg h0, h]
  simp only [if_neg (Nat.not_le.mpr hl)]

theorem keys_append (l l' : List (Recent Url)) : keys (l ++ l') = keys l ++ keys l' :=
  List.map_append _ _ _

theorem keys_eraseIdx (l : List (Recent Url)) (i : Nat) :
    keys (l.eraseIdx i) = (keys l).eraseIdx i := by
  simp [keys, List.eraseIdx_eq_take_drop_succ, List.map_take, List.map_drop]

theorem keys_drop (l : List (Recent Url)) (n : Nat) :
    keys (l.drop n) = (keys l).drop n := by
  simp [keys, List.map_drop]

theorem keys_take (l : List (Recent Url)) (n : Nat) :
    keys (l.take n) = (keys l).take n := by
  simp [keys, List.map_take]

theorem keys_length (l : List (Recent Url)) : (keys l).length = l.length := by
  simp [keys]

theorem keys_getElem (l : List (Recent Url)) (i : Nat) (hi : i < l.length) :
    (keys l).get ⟨i, by simpa [keys_length]⟩ = (l.get ⟨i, hi⟩).url := by
  simp [keys]

theorem mem_keys {l : List (Recent Url)} {u : Url} :
    u ∈ keys l ↔ ∃ r ∈ l, r.url = u := by
  simp [keys]

theorem findIdx_none_of_not_mem_keys {l : List (Recent Url)} {u : Url}
    (h : u ∉ keys l) :
    l.findIdx? (fun x => decide (x.url = u)) = none := by
  rw [List.findIdx?_eq_none_iff]
  intro x hx
  simp only [decide_eq_false_iff_not]
  intro hxu
  exact h (mem_keys.mpr ⟨x, hx, hxu⟩)

theorem map_eraseIdx_comm {α β : Type} (f : α → β) (l : List α) (i : Nat) :
    (l.eraseIdx i).map f = (l.map f).eraseIdx i := by
  simp [List.eraseIdx_eq_take_drop_succ, List.map_take, List.map_drop]

theorem mirrored_iff (serialize : Url → String) (s : RecentsState Url) :
    Mirrored serialize s ↔
      s.array = s.values.map (fun r => mkTable serialize r.url) := by
  constructor
  · rintro ⟨hlen, hidx⟩
    apply List.ext_getElem?
    intro i
    by_cases hi : i < s.values.length
    · rw [hidx i hi, List.getElem?_map]
    · have h1 : s.array[i]? = none := List.getElem?_eq_none (by omega)
      have h2 : (List.map (fun r => mkTable serialize r.url) s.values)[i]? = none :=
        List.getElem?_eq_none (by simpa using Nat.le_of_not_lt hi)
      rw [h1, h2]
  · intro h
    refine ⟨by simp [h], fun i hi => ?_⟩
    rw [h, List.getElem?_map]

theorem not_mem_eraseIdx_of_nodup {α : Type} (l : List α) (i : Nat)
    (hi : i < l.length) (hnd : l.Nodup) : l[i] ∉ l.eraseIdx i := by
  have hd : l.take i ++ l[i] :: l.drop (i + 1) = l := by
    rw [List.getElem_cons_drop, List.take_append_drop]
  rw [List.eraseIdx_eq_take_drop_succ]
  rw [← hd] at hnd
  rw [List.nodup_append] at hnd
  obtain ⟨-, h2, h3⟩ := hnd
  rw [List.nodup_cons] at h2
  intro hmem
  rcases List.mem_append.mp hmem with hm | hm
  · exact h3 hm (List.mem_cons_self _ _)
  · exact h2.1 hm

theorem count_eraseIdx_self {α : Type} [DecidableEq α] (l : List α) (i : Nat)
    (hi : i < l.length) :
    (l.eraseIdx i).count l[i] + 1 = l.count l[i] := by
  have hd : l.take i ++ l[i] :: l.drop (i + 1) = l := by
    rw [List.getElem_cons_drop, List.take_append_drop]
  calc (l.eraseIdx i).count l[i] + 1
      = (l.take i ++ l.drop (i + 1)).count l[i] + 1 := by
        rw [List.eraseIdx_eq_take_drop_succ]
    _ = (l.take i).count l[i] + ((l[i] :: l.drop (i + 1)).count l[i]) := by
        rw [List.count_append, List.count_cons_self]
        omega
    _ = (l.take i ++ l[i] :: l.drop (i + 1)).count l[i] := by
        rw [List.count_append]
    _ = l.count l[i] := by rw [hd]

theorem keys_not_mem_of_findIdx_none {s : RecentsState Url} {e : Recent Url}
    (hf : s.values.findIdx? (fun x => decide (x.url = e.url)) = none) :
    e.url ∉ keys s.values := by
  intro hm
  obtain ⟨r, hr, hru⟩ := mem_keys.mp hm
  have := List.findIdx?_eq_none_iff.mp hf r hr
  simp [hru] at this

/-- After a non-no-op `push` on a state with pairwise-distinct keys, the key
list decomposes as a duplicate-free block not containing the pushed url,
followed by that url. -/
theorem push_keys_decomp {serialize : Url → String} {e : Recent Url}
    {limit : Nat} {s : RecentsState Url} (h0 : limit ≠ 0)
    (hnd : (keys s.values).Nodup) :
    ∃ A', keys (push serialize e limit s).values = A' ++ [e.url] ∧
      A'.Nodup ∧ e.url ∉ A' := by
  cases hf : s.values.findIdx? (fun x => decide (x.url = e.url)) with
  | some i =>
    obtain ⟨hi, hmatch, -⟩ := List.findIdx?_eq_some_iff_getElem.mp hf
    have hurl : s.values[i].url = e.url := by simpa using hmatch
    have hik : i < (keys s.values).length := by rw [keys_length]; exact hi
    have hkey : (keys s.values)[i] = e.url := by simp [keys, hurl]
    refine ⟨(keys s.values).eraseIdx i, ?_, ?_, ?_⟩
    · rw [push_found h0 hf, List.getElem?_eq_getElem hi]
      simp [keys, map_eraseIdx_comm, hurl]
    · exact List.Nodup.sublist (List.eraseIdx_sublist _ _) hnd
    · rw [← hkey]
      exact not_mem_eraseIdx_of_nodup _ _ hik hnd
  | none =>
    have hnm : e.url ∉ keys s.values := keys_not_mem_of_findIdx_none hf
    by_cases hl : limit ≤ s.values.length
    · refine ⟨(keys s.values).drop (s.values.length - limit + 1), ?_, ?_, ?_⟩
      · rw [push_none_evict h0 hf hl]
        simp [keys, List.map_drop]
      · exact List.Nodup.sublist (List.drop_sublist _ _) hnd
      · intro hm
        exact hnm ((List.drop_sublist _ _).mem hm)
    · refine ⟨keys s.values, ?_, hnd, hnm⟩
      rw [push_none_room h0 hf (Nat.not_le.mp hl)]
      simp [keys]

/-- When the keys are pairwise distinct and position `i` holds the url `u`,
keeping the entries whose url differs from `u` is the same as erasing
position `i`. -/
theorem filter_others_of_unique {l : List (Recent Url)} {u : Url} {i : Nat}
    (hnd : (keys l).Nodup) (hi : i < l.length) (hu : l[i].url = u) :
    l.filter (fun x => !decide (x.url = u)) = l.eraseIdx i := by
  have hd : l.take i ++ l[i] :: l.drop (i + 1) = l := by
    rw [List.getElem_cons_drop, List.take_append_drop]
  have hik : i < (keys l).length := by rw [keys_length]; exact hi
  have hkey : (keys l)[i] = l[i].url := by simp [keys]
  have hd2 : (keys l).take i ++ (keys l)[i] :: (keys l).drop (i + 1) = keys l := by
    rw [List.getElem_cons_drop, List.take_append_drop]
  have hknd2 : ((keys l).take i ++ (keys l)[i] :: (keys l).drop (i + 1)).Nodup := by
    rw [hd2]
    exact hnd
  rw [List.nodup_append] at hknd2
  obtain ⟨-, hcons, hdisj⟩ := hknd2
  rw [List.nodup_cons] at hcons
  have htake : ∀ x ∈ l.take i, x.url ≠ u := by
    intro x hx hxu
    have h1 : u ∈ (keys l).take i := by
      rw [← keys_take]
      exact mem_keys.mpr ⟨x, hx, hxu⟩
    have h2 : u ∈ (keys l)[i] :: (keys l).drop (i + 1) := by
      rw [hkey, hu]
      exact List.mem_cons_self _ _
    exact hdisj h1 h2
  have hdrop : ∀ x ∈ l.drop (i + 1), x.url ≠ u := by
    intro x hx hxu
    apply hcons.1
    rw [hkey, hu, ← keys_drop]
    exact mem_keys.mpr ⟨x, hx, hxu⟩
  conv_lhs => rw [← hd]
  rw [List.filter_append, List.eraseIdx_eq_take_drop_succ]
  have h1 : (l.take i).filter (fun x => !decide (x.url = u)) = l.take i :=
    List.filter_eq_self.mpr (fun a ha => by simpa using htake a ha)
  have h2 : (l[i] :: l.drop (i + 1)).filter (fun x => !decide (x.url = u)) =
      l.drop (i + 1) := by
    have hcond : (!decide (l[i].url = u)) = false := by simp [hu]
    rw [List.filter_cons, hcond]
    simp only [Bool.false_eq_true, if_false]
    exact List.filter_eq_self.mpr (fun a ha => by simpa using hdrop a ha)
  rw [h1, h2]

/-- A second push of the same url onto a list that already ends with that url
(and holds it nowhere else) leaves the in-memory list unchanged. -/
theorem push_values_stable {serialize : Url → String} {e : Recent Url}
    {limit : Nat} {s' : RecentsState Url} {A : List (Recent Url)} {r : Recent Url}
    (h0 : limit ≠ 0) (hv : s'.values = A ++ [r]) (hr : r.url = e.url)
    (hA : e.url ∉ keys A) :
    (push serialize e limit s').values = s'.values := by
  have hfA : A.findIdx? (fun x => decide (x.url = e.url)) = none :=
    findIdx_none_of_not_mem_keys hA
  have hf : s'.values.findIdx? (fun x => decide (x.url = e.url)) = some A.length := by
    rw [hv, List.findIdx?_append, hfA]
    simp [hr]
  rw [push_found h0 hf]
  simp only []
  rw [hv, List.eraseIdx_append_of_length_le (Nat.le_refl _),
    List.getElem?_append_right (Nat.le_refl _)]
  simp

end Helpers

/-- Claim C9: `clear()` unconditionally empties both sequences for every
pre-state; after it returns both the in-memory list and the mirrored document
collection have length `0` (they are the empty list), with no error
conditions. -/
theorem clear_empties (s : RecentsState Url) :
    (clear s).values = [] ∧ (clear s).array = [] :=
  ⟨rfl, rfl⟩

/-- Claim C6: `push(entry, 0)` is a no-op: the state (both the in-memory list
and the mirrored document) is returned completely unchanged, the zero test
being taken before the deduplication search. -/
theorem push_zero_noop (serialize : Url → String) (e : Recent Url)
    (s : RecentsState Url) : push serialize e 0 s = s :=
  rfl

/-- Claim C2: the mirroring relation (equal lengths and, at every index, the
document table's string field equals the serialized key of the list entry) is
preserved by every `push(entry, limit)` and by every `clear()`. -/
theorem push_clear_mirrored {serialize : Url → String} (e : Recent Url)
    (limit : Nat) {s : RecentsState Url} (h : Mirrored serialize s) :
    Mirrored serialize (push serialize e limit s) ∧
      Mirrored serialize (clear s) := by
  rw [mirrored_iff] at h
  constructor
  · rw [mirrored_iff]
    by_cases h0 : limit = 0
    · subst h0
      rw [push_limit_zero]
      exact h
    · cases hf : s.values.findIdx? (fun x => decide (x.url = e.url)) with
      | some i =>
        rw [push_found h0 hf]
        obtain ⟨hi, hmatch, -⟩ := List.findIdx?_eq_some_iff_getElem.mp hf
        have hurl : s.values[i].url = e.url := by simpa using hmatch
        have hsome : s.values[i]? = some s.values[i] := List.getElem?_eq_getElem hi
        simp only [hsome, Option.toList_some, List.map_append, map_eraseIdx_comm,
          List.map_cons, List.map_nil, mkTable, hurl, h]
      | none =>
        by_cases hl : limit ≤ s.values.length
        · rw [push_none_evict h0 hf hl]
          simp only [List.map_append, List.map_drop, List.map_cons, List.map_nil, h]
        · rw [push_none_room h0 hf (Nat.not_le.mp hl)]
          simp only [List.map_append, List.map_cons, List.map_nil, h]
  · rw [mirrored_iff]
    simp [clear]

/-- Claim C8: on every pre-state whose two sequences have equal length, `push`
and `clear` are total: every branch is defined and, in particular, every
`remove(index)` that `push` performs on either sequence is within bounds
(`pushRemovesInBounds`), and `clear` runs to the empty state with no error
path. -/
theorem push_clear_total (e : Recent Url) (limit : Nat) {s : RecentsState Url}
    (h : s.array.length = s.values.length) :
    pushRemovesInBounds e limit s ∧ clear s = { values := [], array := [] } := by
  refine ⟨?_, rfl⟩
  rw [pushRemovesInBounds]
  by_cases h0 : limit = 0
  · exact Or.inl h0
  · refine Or.inr ?_
    cases hf : s.values.findIdx? (fun x => decide (x.url = e.url)) with
    | some i =>
      obtain ⟨hi, -, -⟩ := List.findIdx?_eq_some_iff_getElem.mp hf
      exact ⟨h ▸ hi, hi⟩
    | none =>
      intro hl
      have h1 : 1 ≤ limit := Nat.one_le_iff_ne_zero.mpr h0
      exact ⟨by omega, by omega⟩

/-- Witness for C2 at a concrete mirrored state. -/
theorem push_clear_mirrored_witness :
    Mirrored id (⟨[⟨"a.swf"⟩], [⟨"a.swf"⟩]⟩ : RecentsState String) ∧
      (Mirrored id (push id ⟨"b.swf"⟩ 5 (⟨[⟨"a.swf"⟩], [⟨"a.swf"⟩]⟩ : RecentsState String)) ∧
        Mirrored id (clear (⟨[⟨"a.swf"⟩], [⟨"a.swf"⟩]⟩ : RecentsState String))) :=
  ⟨⟨rfl, by decide⟩, push_clear_mirrored ⟨"b.swf"⟩ 5 ⟨rfl, by decide⟩⟩

/-- Claim C1 as stated is false: in the move-to-top branch `push` never
evicts, so a pre-state already longer than `limit` stays longer than `limit`.
Concretely, pushing the already-present url `"a"` with `limit = 1` onto a
two-element state leaves the in-memory list at length `2 > 1`. -/
theorem push_length_bound_cex :
    ¬ ∀ (s : RecentsState String) (e : Recent String) (limit : Nat),
        0 < limit → (push id e limit s).values.length ≤ limit := by
  intro h
  exact absurd (h ⟨[⟨"a"⟩, ⟨"b"⟩], [⟨"a"⟩, ⟨"b"⟩]⟩ ⟨"a"⟩ 1 (by decide)) (by decide)

/-- Claim C1, amended: for `limit > 0`, if the pre-state list is already
within the limit, or `entry.key` is not yet present (so the eviction branch
runs), then after `push(entry, limit)` the in-memory list has length at most
`limit`. -/
theorem push_length_le {serialize : Url → String} {e : Recent Url}
    {limit : Nat} {s : RecentsState Url} (h0 : 0 < limit)
    (h : s.values.length ≤ limit ∨ ∀ r ∈ s.values, r.url ≠ e.url) :
    (push serialize e limit s).values.length ≤ limit := by
  have h0' : limit ≠ 0 := Nat.pos_iff_ne_zero.mp h0
  cases hf : s.values.findIdx? (fun x => decide (x.url = e.url)) with
  | some i =>
    obtain ⟨hi, hmatch, -⟩ := List.findIdx?_eq_some_iff_getElem.mp hf
    have hurl : s.values[i].url = e.url := by simpa using hmatch
    have hlen : s.values.length ≤ limit := by
      rcases h with h | h
      · exact h
      · exact absurd hurl (h _ (s.values.getElem_mem hi))
    rw [push_found h0' hf]
    simp only [List.length_append, List.getElem?_eq_getElem hi, Option.toList_some,
      List.length_cons, List.length_nil]
    have := List.length_eraseIdx_of_lt hi
    omega
  | none =>
    by_cases hl : limit ≤ s.values.length
    · rw [push_none_evict h0' hf hl]
      simp only [List.length_append, List.length_drop, List.length_cons, List.length_nil]
      omega
    · rw [push_none_room h0' hf (Nat.not_le.mp hl)]
      simp only [List.length_append, List.length_cons, List.length_nil]
      omega

/-- Witness for the amended C1 at a concrete input. -/
theorem push_length_le_witness :
    0 < 2 ∧
      ((⟨[⟨"a"⟩], [⟨"a"⟩]⟩ : RecentsState String).values.length ≤ 2 ∨
        ∀ r ∈ (⟨[⟨"a"⟩], [⟨"a"⟩]⟩ : RecentsState String).values, r.url ≠ "b") ∧
      (push id ⟨"b"⟩ 2 (⟨[⟨"a"⟩], [⟨"a"⟩]⟩ : RecentsState String)).values.length ≤ 2 :=
  ⟨by decide, Or.inl (by decide), push_length_le (by decide) (Or.inl (by decide))⟩

/-- Claim C3: when `entry.key` is absent and the list is at or over capacity,
`push` removes exactly `(length - limit) + 1` elements from the front of both
sequences (the eviction loop, oldest index first) and then appends the new
entry and its table at the end of both. -/
theorem push_evicts_from_front {serialize : Url → String} {e : Recent Url}
    {limit : Nat} {s : RecentsState Url} (h0 : 0 < limit)
    (habs : ∀ r ∈ s.values, r.url ≠ e.url) (hl : limit ≤ s.values.length) :
    push serialize e limit s =
      { values := s.values.drop (s.values.length - limit + 1) ++ [e],
        array := s.array.drop (s.values.length - limit + 1) ++ [mkTable serialize e.url] } := by
  have hf : s.values.findIdx? (fun x => decide (x.url = e.url)) = none := by
    apply findIdx_none_of_not_mem_keys
    rw [mem_keys]
    rintro ⟨r, hr, hru⟩
    exact habs r hr hru
  exact push_none_evict (Nat.pos_iff_ne_zero.mp h0) hf hl

/-- Witness for C3: Scenario B — pushing `very_important.swf` with limit `2`
onto `[1.swf, 2.swf, 3.swf]` evicts the two oldest entries and yields
`[3.swf, very_important.swf]`. -/
theorem push_evicts_from_front_witness :
    0 < 2 ∧
      (∀ r ∈ ([⟨"1.swf"⟩, ⟨"2.swf"⟩, ⟨"3.swf"⟩] : List (Recent String)),
        r.url ≠ "very_important.swf") ∧
      2 ≤ 3 ∧
      push id ⟨"very_important.swf"⟩ 2
          (⟨[⟨"1.swf"⟩, ⟨"2.swf"⟩, ⟨"3.swf"⟩],
            [⟨"1.swf"⟩, ⟨"2.swf"⟩, ⟨"3.swf"⟩]⟩ : RecentsState String) =
        ⟨[⟨"3.swf"⟩, ⟨"very_important.swf"⟩],
          [⟨"3.swf"⟩, ⟨"very_important.swf"⟩]⟩ := by
  refine ⟨by decide, by decide, by decide, ?_⟩
  rw [push_evicts_from_front (by decide) (by decide) (by decide)]
  decide

/-- Claim C4: when an entry with `entry.key` is found at position `i`, `push`
removes position `i` from both sequences, appends a newly constructed table
carrying the serialized key at the end of the document, and re-appends the
removed same-key entry at the end of the list. -/
theorem push_move_to_top {serialize : Url → String} {e : Recent Url}
    {limit : Nat} {s : RecentsState Url} {i : Nat} (h0 : 0 < limit)
    (hf : s.values.findIdx? (fun x => decide (x.url = e.url)) = some i) :
    ∃ r : Recent Url, s.values[i]? = some r ∧ r.url = e.url ∧
      push serialize e limit s =
        { values := s.values.eraseIdx i ++ [r],
          array := s.array.eraseIdx i ++ [mkTable serialize e.url] } := by
  obtain ⟨hi, hmatch, -⟩ := List.findIdx?_eq_some_iff_getElem.mp hf
  refine ⟨s.values[i], List.getElem?_eq_getElem hi, by simpa using hmatch, ?_⟩
  rw [push_found (Nat.pos_iff_ne_zero.mp h0) hf, List.getElem?_eq_getElem hi]
  rfl

/-- Witness for C4: Scenario C — pushing `very_important.swf` with limit `3`
onto `[very_important.swf, 2.swf, 3.swf]` moves it to the top, yielding
`[2.swf, 3.swf, very_important.swf]`. -/
theorem push_move_to_top_witness :
    0 < 3 ∧
      (([⟨"very_important.swf"⟩, ⟨"2.swf"⟩, ⟨"3.swf"⟩] : List (Recent String)).findIdx?
          (fun x => decide (x.url = "very_important.swf")) = some 0) ∧
      (∃ r : Recent String,
        (⟨[⟨"very_important.swf"⟩, ⟨"2.swf"⟩, ⟨"3.swf"⟩],
          [⟨"very_important.swf"⟩, ⟨"2.swf"⟩, ⟨"3.swf"⟩]⟩ :
            RecentsState String).values[0]? = some r ∧
        r.url = (⟨"very_important.swf"⟩ : Recent String).url ∧
        push id ⟨"very_important.swf"⟩ 3
            (⟨[⟨"very_important.swf"⟩, ⟨"2.swf"⟩, ⟨"3.swf"⟩],
              [⟨"very_important.swf"⟩, ⟨"2.swf"⟩, ⟨"3.swf"⟩]⟩ : RecentsState String) =
          { values := ([⟨"very_important.swf"⟩, ⟨"2.swf"⟩, ⟨"3.swf"⟩] :
                List (Recent String)).eraseIdx 0 ++ [r],
            array := ([⟨"very_important.swf"⟩, ⟨"2.swf"⟩, ⟨"3.swf"⟩] :
                List Table).eraseIdx 0 ++ [mkTable id "very_important.swf"] }) ∧
      push id ⟨"very_important.swf"⟩ 3
          (⟨[⟨"very_important.swf"⟩, ⟨"2.swf"⟩, ⟨"3.swf"⟩],
            [⟨"very_important.swf"⟩, ⟨"2.swf"⟩, ⟨"3.swf"⟩]⟩ : RecentsState String) =
        ⟨[⟨"2.swf"⟩, ⟨"3.swf"⟩, ⟨"very_important.swf"⟩],
          [⟨"2.swf"⟩, ⟨"3.swf"⟩, ⟨"very_important.swf"⟩]⟩ :=
  ⟨by decide, by decide, push_move_to_top (by decide) (by decide), by decide⟩

/-- Witness for C8 at a concrete length-matched state. -/
theorem push_clear_total_witness :
    (([⟨"t"⟩] : List Table).length = ([⟨"a"⟩] : List (Recent String)).length) ∧
      (pushRemovesInBounds (⟨"a"⟩ : Recent String) 1 ⟨[⟨"a"⟩], [⟨"t"⟩]⟩ ∧
        clear (⟨[⟨"a"⟩], [⟨"t"⟩]⟩ : RecentsState String) = ⟨[], []⟩) :=
  ⟨rfl, push_clear_total ⟨"a"⟩ 1 rfl⟩

/-- Claim C5: key uniqueness is an invariant of `push` — if no two entries of
the pre-state share a key, the same holds after `push(entry, limit)`; and for
`limit > 0` the pushed key occurs exactly once afterwards, at the last
position of the list. -/
theorem push_unique_keys {serialize : Url → String} {e : Recent Url}
    {limit : Nat} {s : RecentsState Url} (hnd : (keys s.values).Nodup) :
    (keys (push serialize e limit s).values).Nodup ∧
      (0 < limit →
        (keys (push serialize e limit s).values).count e.url = 1 ∧
        (keys (push serialize e limit s).values).getLast? = some e.url) := by
  by_cases h0 : limit = 0
  · subst h0
    rw [push_limit_zero]
    exact ⟨hnd, fun h => absurd h (Nat.lt_irrefl 0)⟩
  · obtain ⟨A', hpost, hA'nd, hA'mem⟩ :=
      @push_keys_decomp Url _ serialize e limit s h0 hnd
    rw [hpost]
    refine ⟨?_, fun _ => ⟨?_, List.getLast?_concat _⟩⟩
    · rw [List.nodup_append]
      refine ⟨hA'nd, List.nodup_singleton _, fun a ha hb => ?_⟩
      rw [List.mem_singleton] at hb
      exact hA'mem (hb ▸ ha)
    · rw [List.count_append, List.count_eq_zero.mpr hA'mem]
      simp

/-- Witness for C5 at a concrete input with distinct keys. -/
theorem push_unique_keys_witness :
    (keys (⟨[⟨"a"⟩], [⟨"a"⟩]⟩ : RecentsState String).values).Nodup ∧
      ((keys (push id ⟨"b"⟩ 2 (⟨[⟨"a"⟩], [⟨"a"⟩]⟩ : RecentsState String)).values).Nodup ∧
        (0 < 2 →
          (keys (push id ⟨"b"⟩ 2 (⟨[⟨"a"⟩], [⟨"a"⟩]⟩ : RecentsState String)).values).count
              (Recent.mk "b").url = 1 ∧
          (keys (push id ⟨"b"⟩ 2 (⟨[⟨"a"⟩], [⟨"a"⟩]⟩ : RecentsState String)).values).getLast? =
            some (Recent.mk "b").url)) :=
  ⟨by decide, push_unique_keys (by decide)⟩

/-- Claim C10: when the pre-state already holds two or more entries with the
pushed key (possible for externally edited documents), `push` with a positive
limit moves only the lowest-indexed match to the top: the list becomes the
pre-list with that first match removed and re-appended, and the number of
occurrences of the key is unchanged — duplicates are not collapsed. -/
theorem push_keeps_duplicates {serialize : Url → String} {e : Recent Url}
    {limit : Nat} {s : RecentsState Url} (h0 : 0 < limit)
    (hdup : 2 ≤ (keys s.values).count e.url) :
    ∃ i, ∃ r : Recent Url, s.values[i]? = some r ∧ r.url = e.url ∧
      (∀ j, j < i → ∀ r' : Recent Url, s.values[j]? = some r' → r'.url ≠ e.url) ∧
      (push serialize e limit s).values = s.values.eraseIdx i ++ [r] ∧
      (keys (push serialize e limit s).values).count e.url =
        (keys s.values).count e.url := by
  have hmem : e.url ∈ keys s.values := by
    by_contra hnm
    rw [List.count_eq_zero.mpr hnm] at hdup
    omega
  obtain ⟨r0, hr0, hr0u⟩ := mem_keys.mp hmem
  have hex : ∃ x ∈ s.values, (fun x => decide (x.url = e.url)) x = true :=
    ⟨r0, hr0, by simp [hr0u]⟩
  have hf := List.findIdx?_eq_some_of_exists hex
  obtain ⟨hi, hmatch, hmin⟩ := List.findIdx?_eq_some_iff_getElem.mp hf
  have hurl : s.values[s.values.findIdx fun x => decide (x.url = e.url)].url = e.url := by
    simpa using hmatch
  refine ⟨s.values.findIdx fun x => decide (x.url = e.url), s.values[s.values.findIdx
    fun x => decide (x.url = e.url)], List.getElem?_eq_getElem hi, hurl, ?_, ?_, ?_⟩
  · intro j hj r' hr'
    have hj' : j < s.values.length := Nat.lt_trans hj hi
    rw [List.getElem?_eq_getElem hj'] at hr'
    have hne := hmin j hj
    rw [Option.some_inj] at hr'
    rw [← hr']
    simpa using hne
  · rw [push_found (Nat.pos_iff_ne_zero.mp h0) hf, List.getElem?_eq_getElem hi]
    rfl
  · rw [push_found (Nat.pos_iff_ne_zero.mp h0) hf, List.getElem?_eq_getElem hi]
    have hik : (s.values.findIdx fun x => decide (x.url = e.url)) <
        (keys s.values).length := by rw [keys_length]; exact hi
    have hkey : (keys s.values)[s.values.findIdx fun x => decide (x.url = e.url)] =
        e.url := by simp [keys, hurl]
    have hcnt := count_eraseIdx_self (keys s.values)
      (s.values.findIdx fun x => decide (x.url = e.url)) hik
    rw [hkey] at hcnt
    have hpost : keys (s.values.eraseIdx (s.values.findIdx fun x => decide (x.url = e.url))
        ++ [s.values[s.values.findIdx fun x => decide (x.url = e.url)]]) =
        (keys s.values).eraseIdx (s.values.findIdx fun x => decide (x.url = e.url))
        ++ [e.url] := by
      simp [keys, map_eraseIdx_comm, hurl]
    simp only [Option.toList_some]
    rw [hpost, List.count_append]
    simp only [List.count_cons_self, List.count_nil]
    omega

/-- Witness for C10: state `[a, c, a]` (url `a` twice), pushing url `a` with
limit `9` moves only the first `a` to the top, yielding `[c, a, a]` with the
duplicate still present. -/
theorem push_keeps_duplicates_witness :
    0 < 9 ∧
      2 ≤ (keys (⟨[⟨"a"⟩, ⟨"c"⟩, ⟨"a"⟩], [⟨"a"⟩, ⟨"c"⟩, ⟨"a"⟩]⟩ :
        RecentsState String).values).count (Recent.mk "a").url ∧
      (∃ i, ∃ r : Recent String,
        (⟨[⟨"a"⟩, ⟨"c"⟩, ⟨"a"⟩], [⟨"a"⟩, ⟨"c"⟩, ⟨"a"⟩]⟩ :
          RecentsState String).values[i]? = some r ∧
        r.url = (Recent.mk "a").url ∧
        (∀ j, j < i → ∀ r' : Recent String,
          (⟨[⟨"a"⟩, ⟨"c"⟩, ⟨"a"⟩], [⟨"a"⟩, ⟨"c"⟩, ⟨"a"⟩]⟩ :
            RecentsState String).values[j]? = some r' → r'.url ≠ (Recent.mk "a").url) ∧
        (push id ⟨"a"⟩ 9 (⟨[⟨"a"⟩, ⟨"c"⟩, ⟨"a"⟩], [⟨"a"⟩, ⟨"c"⟩, ⟨"a"⟩]⟩ :
          RecentsState String)).values =
          (⟨[⟨"a"⟩, ⟨"c"⟩, ⟨"a"⟩], [⟨"a"⟩, ⟨"c"⟩, ⟨"a"⟩]⟩ :
            RecentsState String).values.eraseIdx i ++ [r] ∧
        (keys (push id ⟨"a"⟩ 9 (⟨[⟨"a"⟩, ⟨"c"⟩, ⟨"a"⟩], [⟨"a"⟩, ⟨"c"⟩, ⟨"a"⟩]⟩ :
          RecentsState String)).values).count (Recent.mk "a").url =
          (keys (⟨[⟨"a"⟩, ⟨"c"⟩, ⟨"a"⟩], [⟨"a"⟩, ⟨"c"⟩, ⟨"a"⟩]⟩ :
            RecentsState String).values).count (Recent.mk "a").url) ∧
      (push id ⟨"a"⟩ 9 (⟨[⟨"a"⟩, ⟨"c"⟩, ⟨"a"⟩], [⟨"a"⟩, ⟨"c"⟩, ⟨"a"⟩]⟩ :
        RecentsState String)).values = [⟨"c"⟩, ⟨"a"⟩, ⟨"a"⟩] :=
  ⟨by decide, by decide, push_keeps_duplicates (by decide) (by decide), by decide⟩

/-- Claim C7 as stated is false: "every limit at least the current length"
admits `limit = 0` on the empty state, where both pushes are no-ops and the
pushed key ends up occurring zero times instead of exactly once. -/
theorem move_to_top_idem_cex :
    ¬ ∀ (s : RecentsState String) (e : Recent String) (limit : Nat),
        (keys s.values).Nodup → s.values.length ≤ limit →
        (keys (push id e limit (push id e limit s)).values).count e.url = 1 ∧
        (keys (push id e limit (push id e limit s)).values).getLast? = some e.url ∧
        (push id e limit (push id e limit s)).values.filter
            (fun x => !decide (x.url = e.url)) =
          s.values.filter (fun x => !decide (x.url = e.url)) := by
  intro h
  exact absurd (h ⟨[], []⟩ ⟨"x"⟩ 0 (by decide) (by decide)).1 (by decide)

/-- Claim C7, amended: for a state with pairwise-distinct keys and a positive
limit at least the current length, pushing the same key twice in a row yields
a list where that key occurs exactly once, at the last position; the remaining
other entries keep their relative order (they form a suffix of the original
others), and whenever the key was already present or the limit strictly
exceeds the length no other entry is lost at all. -/
theorem move_to_top_idem {serialize : Url → String} {e : Recent Url}
    {limit : Nat} {s : RecentsState Url} (h0 : 0 < limit)
    (hnd : (keys s.values).Nodup) (_hlen : s.values.length ≤ limit) :
    (keys (push serialize e limit (push serialize e limit s)).values).count e.url = 1 ∧
    (keys (push serialize e limit (push serialize e limit s)).values).getLast? =
      some e.url ∧
    (push serialize e limit (push serialize e limit s)).values.filter
        (fun x => !decide (x.url = e.url)) <:+
      s.values.filter (fun x => !decide (x.url = e.url)) ∧
    (e.url ∈ keys s.values ∨ s.values.length < limit →
      (push serialize e limit (push serialize e limit s)).values.filter
          (fun x => !decide (x.url = e.url)) =
        s.values.filter (fun x => !decide (x.url = e.url))) := by
  have h0' : limit ≠ 0 := Nat.pos_iff_ne_zero.mp h0
  obtain ⟨A, r, h1, hr, hA, hsuf, heq⟩ :
      ∃ A r, (push serialize e limit s).values = A ++ [r] ∧ r.url = e.url ∧
        e.url ∉ keys A ∧
        A <:+ s.values.filter (fun x => !decide (x.url = e.url)) ∧
        (e.url ∈ keys s.values ∨ s.values.length < limit →
          A = s.values.filter (fun x => !decide (x.url = e.url))) := by
    cases hf : s.values.findIdx? (fun x => decide (x.url = e.url)) with
    | some i =>
      obtain ⟨hi, hmatch, -⟩ := List.findIdx?_eq_some_iff_getElem.mp hf
      have hurl : s.values[i].url = e.url := by simpa using hmatch
      have hfil := @filter_others_of_unique Url _ s.values e.url i hnd hi hurl
      have hik : i < (keys s.values).length := by rw [keys_length]; exact hi
      have hkey : (keys s.values)[i] = e.url := by simp [keys, hurl]
      refine ⟨s.values.eraseIdx i, s.values[i], ?_, hurl, ?_, ?_, fun _ => hfil.symm⟩
      · rw [push_found h0' hf, List.getElem?_eq_getElem hi]
        rfl
      · rw [keys_eraseIdx, ← hkey]
        exact not_mem_eraseIdx_of_nodup _ _ hik hnd
      · rw [hfil]
    | none =>
      have hnm : e.url ∉ keys s.values := keys_not_mem_of_findIdx_none hf
      have hfil : s.values.filter (fun x => !decide (x.url = e.url)) = s.values :=
        List.filter_eq_self.mpr (fun a ha => by
          have hne : a.url ≠ e.url := fun hau => hnm (mem_keys.mpr ⟨a, ha, hau⟩)
          simpa using hne)
      by_cases hl : limit ≤ s.values.length
      · refine ⟨s.values.drop (s.values.length - limit + 1), e, ?_, rfl, ?_, ?_, ?_⟩
        · rw [push_none_evict h0' hf hl]
        · intro hm
          rw [keys_drop] at hm
          exact hnm ((List.drop_sublist _ _).mem hm)
        · rw [hfil]
          exact List.drop_suffix _ _
        · rintro (hm | hlt)
          · exact absurd hm hnm
          · exact absurd hlt (Nat.not_lt.mpr hl)
      · refine ⟨s.values, e, ?_, rfl, hnm, ?_, fun _ => hfil.symm⟩
        · rw [push_none_room h0' hf (Nat.not_le.mp hl)]
        · rw [hfil]
  have h2 : (push serialize e limit (push serialize e limit s)).values = A ++ [r] := by
    rw [push_values_stable h0' h1 hr hA, h1]
  rw [h2]
  have hkeys2 : keys (A ++ [r]) = keys A ++ [e.url] := by
    simp [keys, hr]
  have hfA : (A ++ [r]).filter (fun x => !decide (x.url = e.url)) = A := by
    rw [List.filter_append]
    have hA1 : A.filter (fun x => !decide (x.url = e.url)) = A :=
      List.filter_eq_self.mpr (fun a ha => by
        have hne : a.url ≠ e.url := fun hau => hA (mem_keys.mpr ⟨a, ha, hau⟩)
        simpa using hne)
    have hr1 : ([r] : List (Recent Url)).filter (fun x => !decide (x.url = e.url)) = [] := by
      simp [hr]
    rw [hA1, hr1, List.append_nil]
  refine ⟨?_, ?_, ?_, ?_⟩
  · rw [hkeys2, List.count_append, List.count_eq_zero.mpr hA]
    simp
  · rw [hkeys2]
    exact List.getLast?_concat _
  · rw [hfA]
    exact hsuf
  · intro hcase
    rw [hfA]
    exact heq hcase

/-- Witness for the amended C7 at a concrete input: state `[a]`, pushing url
`b` twice with limit `2`. -/
theorem move_to_top_idem_witness :
    0 < 2 ∧
      (keys (⟨[⟨"a"⟩], [⟨"a"⟩]⟩ : RecentsState String).values).Nodup ∧
      (⟨[⟨"a"⟩], [⟨"a"⟩]⟩ : RecentsState String).values.length ≤ 2 ∧
      ((keys (push id ⟨"b"⟩ 2 (push id ⟨"b"⟩ 2
            (⟨[⟨"a"⟩], [⟨"a"⟩]⟩ : RecentsState String))).values).count
          (Recent.mk "b").url = 1 ∧
        (keys (push id ⟨"b"⟩ 2 (push id ⟨"b"⟩ 2
            (⟨[⟨"a"⟩], [⟨"a"⟩]⟩ : RecentsState String))).values).getLast? =
          some (Recent.mk "b").url ∧
        (push id ⟨"b"⟩ 2 (push id ⟨"b"⟩ 2
            (⟨[⟨"a"⟩], [⟨"a"⟩]⟩ : RecentsState String))).values.filter
            (fun x => !decide (x.url = (Recent.mk "b").url)) <:+
          (⟨[⟨"a"⟩], [⟨"a"⟩]⟩ : RecentsState String).values.filter
            (fun x => !decide (x.url = (Recent.mk "b").url)) ∧
        ((Recent.mk "b").url ∈ keys (⟨[⟨"a"⟩], [⟨"a"⟩]⟩ : RecentsState String).values ∨
            (⟨[⟨"a"⟩], [⟨"a"⟩]⟩ : RecentsState String).values.length < 2 →
          (push id ⟨"b"⟩ 2 (push id ⟨"b"⟩ 2
              (⟨[⟨"a"⟩], [⟨"a"⟩]⟩ : RecentsState String))).values.filter
              (fun x => !decide (x.url = (Recent.mk "b").url)) =
            (⟨[⟨"a"⟩], [⟨"a"⟩]⟩ : RecentsState String).values.filter
              (fun x => !decide (x.url = (Recent.mk "b").url)))) :=
  ⟨by decide, by decide, by decide,
    move_to_top_idem (by decide) (by decide) (by decide)⟩

end RecentsWriter
